import Mathlib

/-!
Shallow embedding of the CSV-to-graph ingestion pipeline of this repository
(yfilesontology).  The repository contains three variants of the pipeline:

* `src/unnamed/part_000`, first program ("variant A"): `updateGraph` —
  first-write-wins node dedup, string-keyed edge consolidation, a load-local
  type→color map, direct node/edge materialization, graph-derived legend.
* `src/unnamed/part_000`, second program ("variant B"):
  `loadAndProcessCSVFiles` — Map-constructor (last-write-wins) node dedup,
  a module-global `typeColors` map fed from a 16-color palette.
* `src/unnamed/part_001` ("variant C"): `loadGraphInChunks` /
  `updateGraphChunk` — chunked incremental construction with a fresh
  `GraphBuilder` per chunk, a fixed name-based `getColorForType`,
  `applyClustering` post-processing (isolated-node pruning, then layout),
  and `createLegend` / `getTypeColorMap`.

The external yFiles `GraphBuilder` / `IGraph` collaborators are modelled by
the contract the spec states for them (add-node / add-edge; an edge is only
materialized when both endpoint ids resolve among the builder's node data;
a fresh builder has no knowledge of previously built items and appends).
All functions below are total: no input makes them raise an error.
-/

/-- Node record parsed from the nodes CSV (`interface NodeData` in
`src/unnamed/part_001` lines 39-43): `id`, `type`, optional `label`. -/
structure NodeData where
  id : String
  type : String
  label : Option String
deriving DecidableEq, Repr

/-- Edge record of the chunked variant (`interface EdgeData`,
`src/unnamed/part_001` lines 45-48): `source` and `target` only. -/
structure EdgeData where
  source : String
  target : String
deriving DecidableEq, Repr

/-- Edge record as consumed by `updateGraph` in `src/unnamed/part_000`
(lines 158-185): `source`, `target` and an optional `edgeType`. -/
structure EdgeRec where
  source : String
  target : String
  edgeType : Option String
deriving DecidableEq, Repr

/-- Consolidated-edge value stored in the `consolidatedEdges` map
(`src/unnamed/part_000` line 158): first occurrence's `source`, `target`
and `edgeType`, plus the running occurrence `count`. -/
structure CEdge where
  source : String
  target : String
  count : Nat
  edgeType : Option String
deriving DecidableEq, Repr

/-- The 10-entry color palette `colors` that appears identically in
`updateGraph` (`src/unnamed/part_000` line 134) and in `getTypeColorMap`
(`src/unnamed/part_001` line 472). -/
def colors10 : List String :=
  ["#ff6f61", "#6b5b95", "#88b04b", "#f7cac9", "#92a8d1",
   "#955251", "#b565a7", "#009b77", "#dd4124", "#d65076"]

/-- The 16-entry module-level `colorPalette` of the second program of
`src/unnamed/part_000` (lines 368-371). -/
def colorPalette16 : List String :=
  ["#FF5733", "#33FF57", "#3357FF", "#FF33A8", "#FF8C33", "#33FF8C",
   "#8C33FF", "#FFD633", "#33FFF3", "#F333FF", "#33FFBD", "#FF336E",
   "#33D1FF", "#FF8333", "#BFFF33", "#FF33F1"]

/-- One `Map.set(node.id, node)` step of a JavaScript `Map` keyed by node id:
an existing key keeps its position but receives the new value, a new key is
appended.  This is the semantics of `uniqueNodesMap.set(node.id, node)` in
`loadGraphInChunks` (`src/unnamed/part_001` line 165) and of the
`new Map(nodes.map(node => [node.id, node]))` constructor in
`loadAndProcessCSVFiles` (`src/unnamed/part_000` line 465). -/
def insertLW (m : List NodeData) (n : NodeData) : List NodeData :=
  if m.any (fun x => x.id == n.id) then
    m.map (fun x => if x.id == n.id then n else x)
  else m ++ [n]

/-- Last-write-wins deduplication by id: the value sequence of a JavaScript
`Map` built by inserting every record in input order
(`Array.from(new Map(nodes.map(node => [node.id, node])).values())`,
`src/unnamed/part_000` line 465, and the accumulated `uniqueNodesMap` of
`src/unnamed/part_001`). -/
def dedupLW (l : List NodeData) : List NodeData :=
  l.foldl insertLW []

/-- First-write-wins deduplication by id performed by `updateGraph`
(`src/unnamed/part_000` lines 136-142): a record is inserted only if its id
is not present yet (`if (!uniqueNodes.has(node.id)) uniqueNodes.set(...)`). -/
def dedupFW (l : List NodeData) : List NodeData :=
  l.foldl (fun m n => if m.any (fun x => x.id == n.id) then m else m ++ [n]) []

/-- The consolidation key `` `${edge.source}-${edge.target}` `` of
`updateGraph` (`src/unnamed/part_000` line 161). -/
def edgeKey (e : EdgeRec) : String :=
  e.source ++ "-" ++ e.target

/-- One iteration of the edge-consolidation loop of `updateGraph`
(`src/unnamed/part_000` lines 160-167): a present key gets its count
incremented in place, a new key is appended with count 1 and the current
record's fields. -/
def consolidateStep (m : List (String × CEdge)) (e : EdgeRec) :
    List (String × CEdge) :=
  if m.any (fun kv => kv.1 == edgeKey e) then
    m.map (fun kv =>
      if kv.1 == edgeKey e then
        (kv.1, { kv.2 with count := kv.2.count + 1 })
      else kv)
  else m ++ [(edgeKey e, ⟨e.source, e.target, 1, e.edgeType⟩)]

/-- The `consolidatedEdges` map of `updateGraph`
(`src/unnamed/part_000` lines 158-167), in insertion order. -/
def consolidatedEdges (l : List EdgeRec) : List (String × CEdge) :=
  l.foldl consolidateStep []

/-- Lookup in an association list, mirroring `Map.get` /
`consolidatedEdges.get(edgeKey)`. -/
def lookupCE (k : String) (m : List (String × CEdge)) : Option CEdge :=
  (m.find? (fun kv => kv.1 == k)).map (fun kv => kv.2)

/-- Option alternative: `orO a b` keeps `a` when it is `some`, else `b`.
Used to state fold characterizations of the dedup maps. -/
def orO {α : Type} (a b : Option α) : Option α :=
  match a with
  | some v => some v
  | none => b

/-- The fixed name-based color table of the chunked variant
(`getColorForType`, `src/unnamed/part_001` lines 217-224): an object lookup
`colors[type]` falling back to `'gray'`. -/
def getColorForType (ty : String) : String :=
  if ty == "Type1" then "red"
  else if ty == "Type2" then "blue"
  else if ty == "Type3" then "green"
  else "gray"

/-- `getTypeColorMap` (`src/unnamed/part_001` lines 470-483): walk the node
records, and on the first occurrence of a type assign it
`colors[colorIndex % colors.length]` and increment `colorIndex`. -/
def getTypeColorMap (nodesData : List NodeData) : List (String × String) :=
  (nodesData.foldl
    (fun (st : List (String × String) × Nat) node =>
      if (st.1.find? (fun kv => kv.1 == node.type)).isSome then st
      else (st.1 ++ [(node.type, colors10.getD (st.2 % colors10.length) "")],
            st.2 + 1))
    ([], 0)).1

/-- Lookup in a type→color association list (`typeColorMap[type]`). -/
def lookupTC (k : String) (m : List (String × String)) : Option String :=
  (m.find? (fun kv => kv.1 == k)).map (fun kv => kv.2)

/-- The list of distinct type strings in first-seen order of a node-record
sequence (the key set of the incrementally built type→color map). -/
def distinctTypes (nodesData : List NodeData) : List String :=
  nodesData.foldl
    (fun acc node => if acc.any (fun ty => ty == node.type) then acc
                     else acc ++ [node.type]) []

/-- The expected palette assignment: the type at position `i` of a distinct
list receives `colors10[(s + i) % 10]`, starting from index `s`. -/
def colorEntriesFrom : Nat → List String → List (String × String)
  | _, [] => []
  | i, ty :: t =>
      (ty, colors10.getD (i % colors10.length) "") :: colorEntriesFrom (i + 1) t

/-- Runtime graph edge entity: endpoint entity ids `s`, `t` (references to
created graph nodes) together with the endpoint id strings of the record it
was built from.  Models the yFiles `IEdge` created by
`graphBuilder.createEdgesSource` resolution (spec §6 contract
`add-edge(source, target, ...)`). -/
structure EntEdge where
  s : Nat
  t : Nat
  sid : String
  tid : String
deriving DecidableEq, Repr

/-- Runtime graph as accumulated by the external `IGraph` collaborator
(spec §6 contract): node entities carry a fresh entity id and their
originating record (tag); `nextId` numbers entity creation. -/
structure BGraph where
  nextId : Nat
  nodes : List (Nat × NodeData)
  edges : List EntEdge
deriving DecidableEq, Repr

/-- The cleared/initial graph. -/
def BGraph.empty : BGraph := ⟨0, [], []⟩

/-- Number a record list with consecutive entity ids starting at `k`
(entity creation order of one `GraphBuilder.buildGraph` pass). -/
def numberFrom : Nat → List NodeData → List (Nat × NodeData)
  | _, [] => []
  | k, n :: t => (k, n) :: numberFrom (k + 1) t

/-- Position of the first record satisfying `p`, mirroring how the
`GraphBuilder` id binding (and `graph.nodes.find` in `updateGraph`)
resolves an id string to the first matching node. -/
def resolveIdx (p : NodeData → Bool) : List NodeData → Option Nat
  | [] => none
  | n :: t => if p n then some 0 else (resolveIdx p t).map (fun i => i + 1)

/-- Edge creation for a single edge datum within one builder pass: the edge
is materialized only when both the source and the target id resolve among
the builder's node data (entity ids offset by the pass base `k`);
otherwise the datum is silently skipped. -/
def edgeStep (nd : List NodeData) (k : Nat) (acc : List EntEdge)
    (e : EdgeData) : List EntEdge :=
  match resolveIdx (fun n => n.id == e.source) nd with
  | none => acc
  | some si =>
    match resolveIdx (fun n => n.id == e.target) nd with
    | none => acc
    | some ti => acc ++ [⟨k + si, k + ti, e.source, e.target⟩]

/-- One `GraphBuilder` pass over node data `nd` and edge data `ed`
(`updateGraphChunk`, `src/unnamed/part_001` lines 182-215): a FRESH builder
is created on the existing graph `g`, so it appends one new node entity per
data item regardless of what `g` already contains, and creates an edge for
every edge datum whose source and target ids both resolve among THIS
builder's node data; an edge with an unresolvable endpoint is silently
skipped (spec §4.2 contract for the external builder). -/
def buildChunk (g : BGraph) (nd : List NodeData) (ed : List EdgeData) :
    BGraph :=
  { nextId := g.nextId + nd.length
    nodes := g.nodes ++ numberFrom g.nextId nd
    edges := g.edges ++ ed.foldl (edgeStep nd g.nextId) [] }

/-- One iteration of the chunk loop of `loadGraphInChunks`
(`src/unnamed/part_001` lines 163-174): merge the chunk into the
accumulated `uniqueNodesMap`, select the edges whose source or target id
appears in the RAW current chunk, and run `updateGraphChunk` on the full
accumulated node list and that edge selection. -/
def chunkStep (ed : List EdgeData) (st : List NodeData × BGraph)
    (chunk : List NodeData) : List NodeData × BGraph :=
  (chunk.foldl insertLW st.1,
   buildChunk st.2 (chunk.foldl insertLW st.1)
     (ed.filter (fun e =>
       chunk.any (fun n => n.id == e.source || n.id == e.target))))

/-- `Math.ceil(nodesData.length / chunkSize)` (`src/unnamed/part_001`
line 155), as a natural-number ceiling division. -/
def totalChunksOf (C : Nat) (len : Nat) : Nat := (len + C - 1) / C

/-- The chunk-loop portion of `loadGraphInChunks`
(`src/unnamed/part_001` lines 153-174), parameterized by the chunk size `C`
(the source fixes `chunkSize = 100`): fold `chunkStep` over the chunk
slices `nodesData.slice(i*C, (i+1)*C)`, starting from an empty accumulated
map and the initial graph `g0` (the source never clears the previous
graph).  Returns the final accumulated map and graph. -/
def loadGraphInChunksBuild (C : Nat) (nd : List NodeData)
    (ed : List EdgeData) (g0 : BGraph) : List NodeData × BGraph :=
  (List.range (totalChunksOf C nd.length)).foldl
    (fun st i => chunkStep ed st ((nd.drop (i * C)).take C)) ([], g0)

/-- Modelled from the spec's words (§8): "a single non-chunked construction
over the same input" — one builder pass over the deduplicated node list and
the full edge list, starting from an empty graph (this is exactly what
`loadAndProcessCSVFiles` in `src/unnamed/part_000` does in one shot). -/
def buildSingleSpec (nd : List NodeData) (ed : List EdgeData) : BGraph :=
  buildChunk BGraph.empty (dedupLW nd) ed

/-- Whether some record in `l` carries id `x`. -/
def hasId (l : List NodeData) (x : String) : Bool :=
  l.any (fun n => n.id == x)

/-- Whether the graph contains a node entity whose tag has id `x`. -/
def nodeHasId (g : BGraph) (x : String) : Bool :=
  g.nodes.any (fun p => p.2.id == x)

/-- Whether the graph contains an edge built from endpoint ids `(a, b)`. -/
def edgeHasPair (g : BGraph) (a b : String) : Bool :=
  g.edges.any (fun ee => ee.sid == a && ee.tid == b)

/-- `graph.degree(node)`: the number of edges incident to the node entity
`eid` (`src/unnamed/part_001` line 256). -/
def degree (g : BGraph) (eid : Nat) : Nat :=
  (g.edges.filter (fun ee => ee.s == eid || ee.t == eid)).length

/-- The isolated-node pruning of `applyClustering`
(`src/unnamed/part_001` lines 256-257): collect the nodes of degree 0 and
remove them (removal of an edge-free node removes no edges). -/
def pruneIsolated (g : BGraph) : BGraph :=
  { g with nodes := g.nodes.filter (fun p => degree g p.1 != 0) }

/-- Observable outcome of one full `loadGraphInChunks` run: the final graph
(after `applyClustering`'s pruning), the chunk count, the sequence of
progress-bar writes (`progressBar.value = i + 1`), and how many times the
initial layout was invoked (`applyClustering` unconditionally awaits
`applyInitialLayout`, `src/unnamed/part_001` line 259). -/
structure ChunkRun where
  graph : BGraph
  totalChunks : Nat
  progressUpdates : List Nat
  layoutInvocations : Nat
deriving DecidableEq, Repr

/-- A full `loadGraphInChunks` run (`src/unnamed/part_001` lines 153-180):
the chunk loop, then `applyClustering` — which prunes isolated nodes and
then always invokes the initial layout once — with the progress updates
recorded per completed chunk. -/
def loadGraphInChunksRun (C : Nat) (nd : List NodeData) (ed : List EdgeData)
    (g0 : BGraph) : ChunkRun :=
  { graph := pruneIsolated (loadGraphInChunksBuild C nd ed g0).2
    totalChunks := totalChunksOf C nd.length
    progressUpdates := (List.range (totalChunksOf C nd.length)).map
      (fun i => i + 1)
    layoutInvocations := 1 }

/-- Graph node of `updateGraph` (variant A): its originating record as tag
plus the solid fill color derived from the type
(`src/unnamed/part_000` lines 149-154). -/
structure ANode where
  tag : NodeData
  color : String
deriving DecidableEq, Repr

/-- Graph edge of `updateGraph` (variant A): endpoint node positions in
creation order and the consolidated record as tag
(`src/unnamed/part_000` lines 177-182). -/
structure AEdge where
  sIdx : Nat
  tIdx : Nat
  tag : CEdge
deriving DecidableEq, Repr

/-- The graph mutated by `updateGraph` (variant A). -/
structure AGraph where
  nodes : List ANode
  edges : List AEdge
deriving DecidableEq, Repr

/-- The initial empty graph of variant A. -/
def AGraph.empty : AGraph := ⟨[], []⟩

/-- `graph.clear()` (`src/unnamed/part_000` line 130): discards all
previous nodes and edges, whatever they were. -/
def AGraph.clear (_g : AGraph) : AGraph := ⟨[], []⟩

/-- `graph.nodes.find(node => node.tag.id === x)`
(`src/unnamed/part_000` lines 170-171): position of the first graph node
whose tag id matches. -/
def resolveA (xid : String) : List ANode → Option Nat
  | [] => none
  | an :: t => if an.tag.id == xid then some 0
               else (resolveA xid t).map (fun i => i + 1)

/-- The node-creation loop of `updateGraph`
(`src/unnamed/part_000` lines 144-156): for each unique node, assign the
type a palette color on first encounter (`colors[colorIndex % 10]`,
incrementing `colorIndex`), then create the node styled with
`typeColorMap[node.type]`. -/
def buildANodes (uniqueNodes : List NodeData) : List ANode :=
  (uniqueNodes.foldl
    (fun (st : List (String × String) × Nat × List ANode) n =>
      if (st.1.find? (fun kv => kv.1 == n.type)).isSome then
        (st.1, st.2.1, st.2.2 ++ [⟨n, (lookupTC n.type st.1).getD ""⟩])
      else
        (st.1 ++ [(n.type, colors10.getD (st.2.1 % colors10.length) "")],
         st.2.1 + 1,
         st.2.2 ++ [⟨n, colors10.getD (st.2.1 % colors10.length) ""⟩]))
    ([], 0, [])).2.2

/-- Edge materialization for one consolidated edge
(`src/unnamed/part_000` lines 169-185): find source and target among the
graph nodes by tag id; create the edge only if both are found, silently
skipping it otherwise. -/
def aEdgeStep (ns : List ANode) (acc : List AEdge) (ce : CEdge) :
    List AEdge :=
  match resolveA ce.source ns with
  | none => acc
  | some si =>
    match resolveA ce.target ns with
    | none => acc
    | some ti => acc ++ [⟨si, ti, ce⟩]

/-- The edge-materialization loop of `updateGraph` over the consolidated
edges in map order. -/
def buildAEdges (ns : List ANode) (ces : List CEdge) : List AEdge :=
  ces.foldl (aEdgeStep ns) []

/-- `updateGraph` (variant A, `src/unnamed/part_000` lines 128-189):
clear the previous graph, deduplicate nodes (first write wins), create
colored nodes, consolidate edges, and materialize each consolidated edge
whose endpoints both exist. -/
def updateGraphA (prev : AGraph) (nodesData : List NodeData)
    (edgesData : List EdgeRec) : AGraph :=
  let g0 := AGraph.clear prev
  let ns := g0.nodes ++ buildANodes (dedupFW nodesData)
  ⟨ns, g0.edges ++
    buildAEdges ns ((consolidatedEdges edgesData).map (fun kv => kv.2))⟩

/-- The node-created listener of `loadAndProcessCSVFiles`
(`src/unnamed/part_000` lines 489-498) acting on the module-global
`typeColors`: a type not yet present gets
`colorPalette[Object.keys(typeColors).length % colorPalette.length]`;
existing assignments are never changed. -/
def assignColorsB (tc : List (String × String)) (nodes : List NodeData) :
    List (String × String) :=
  nodes.foldl
    (fun tc n =>
      if (tc.find? (fun kv => kv.1 == n.type)).isSome then tc
      else tc ++ [(n.type,
        colorPalette16.getD (tc.length % colorPalette16.length) "")]) tc

/-- The effect of one `loadAndProcessCSVFiles` call on the module-global
`typeColors` state (`src/unnamed/part_000` lines 463-498): nodes are
deduplicated last-write-wins, then the listener fires once per created
node.  The previous `typeColors` content is NOT cleared. -/
def loadBTypeColors (tc : List (String × String)) (nodes : List NodeData) :
    List (String × String) :=
  assignColorsB tc (dedupLW nodes)

/-- Legend derivation from the built graph (`createLegend`,
`src/unnamed/part_000` lines 290-299): walk the graph nodes, record the
first-seen color per non-empty (truthy) tag type. -/
def legendFromGraph (g : AGraph) : List (String × String) :=
  g.nodes.foldl
    (fun acc an =>
      if an.tag.type != "" &&
          (acc.find? (fun kv => kv.1 == an.tag.type)).isNone then
        acc ++ [(an.tag.type, an.color)]
      else acc) []

/-- The legend DOM overlay of variant A (`createLegend`,
`src/unnamed/part_000` lines 267-322): any existing legend element is
removed, then a fresh panel with the graph-derived (type, color) entries is
appended — the previous DOM state never survives. -/
def createLegendA (_dom : Option (List (String × String))) (g : AGraph) :
    Option (List (String × String)) :=
  some (legendFromGraph g)

/-- The legend DOM overlay of the chunked variant (`createLegend`,
`src/unnamed/part_001` lines 424-468): the existing legend element is
removed and a fresh panel is built from `getTypeColorMap(nodesData)`. -/
def createLegendC (_dom : Option (List (String × String)))
    (nodesData : List NodeData) : Option (List (String × String)) :=
  some (getTypeColorMap nodesData)

/-- Theorems start here. -/
theorem orO_none {α : Type} (a : Option α) : orO a none = a := by
  cases a <;> rfl

theorem none_orO {α : Type} (b : Option α) : orO none b = b := rfl

theorem some_orO {α : Type} (v : α) (b : Option α) :
    orO (some v) b = some v := rfl

theorem find?_append_orO {α : Type} (l₁ l₂ : List α) (p : α → Bool) :
    (l₁ ++ l₂).find? p = orO (l₁.find? p) (l₂.find? p) := by
  induction l₁ with
  | nil => simp [none_orO]
  | cons a t ih =>
    by_cases h : p a
    · simp [List.find?_cons_of_pos _ h, some_orO]
    · have h' : p a = false := by simpa using h
      simp [List.find?_cons_of_neg, h', ih]

theorem consolidate_two_step (e1 e2 : EdgeRec) :
    consolidatedEdges [e1, e2] =
      if edgeKey e1 == edgeKey e2 then
        [(edgeKey e1, ⟨e1.source, e1.target, 2, e1.edgeType⟩)]
      else
        [(edgeKey e1, ⟨e1.source, e1.target, 1, e1.edgeType⟩),
         (edgeKey e2, ⟨e2.source, e2.target, 1, e2.edgeType⟩)] := by
  simp only [consolidatedEdges, List.foldl, consolidateStep, List.any_nil,
    Bool.false_eq_true, if_false, List.nil_append, List.any_cons,
    List.any_nil, Bool.or_false]
  by_cases h : edgeKey e1 == edgeKey e2
  · have h' : (edgeKey e1 == edgeKey e2) = true := h
    have h2 : edgeKey e1 = edgeKey e2 := by
      exact beq_iff_eq.mp h'
    simp [h2, List.map]
  · have h' : (edgeKey e1 == edgeKey e2) = false := by
      simpa using h
    have hsymm : (edgeKey e2 == edgeKey e1) = false := by
      rcases beq_eq_false_iff_ne.mp h' with hne
      exact beq_eq_false_iff_ne.mpr (fun hq => hne hq.symm)
    simp [h', hsymm]

/-- C10: two raw edge records are merged into one consolidated edge exactly
when their concatenated keys `source ++ "-" ++ target` coincide; in
particular the distinct endpoint pairs ("a","b-c") and ("a-b","c") share the
key "a-b-c" and collapse into a single consolidated edge of count 2. -/
theorem c10_edge_key_concat_collision (e1 e2 : EdgeRec) :
    ((consolidatedEdges [e1, e2]).length =
       if edgeKey e1 == edgeKey e2 then 1 else 2) ∧
    consolidatedEdges
        [⟨"a", "b-c", none⟩, ⟨"a-b", "c", none⟩] =
      [("a-b-c", ⟨"a", "b-c", 2, none⟩)] := by
  constructor
  · rw [consolidate_two_step]
    by_cases h : edgeKey e1 == edgeKey e2
    · simp [h]
    · have h' : (edgeKey e1 == edgeKey e2) = false := by simpa using h
      simp [h']
  · decide

theorem find?_map_key_preserving (m : List (String × CEdge))
    (f : String × CEdge → String × CEdge)
    (hf : ∀ kv, (f kv).1 = kv.1) (k : String) :
    (m.map f).find? (fun kv => kv.1 == k) =
      (m.find? (fun kv => kv.1 == k)).map f := by
  induction m with
  | nil => rfl
  | cons kv t ih =>
    by_cases h : kv.1 == k
    · have h2 : ((f kv).1 == k) = true := by rw [hf]; exact h
      simp [List.find?_cons_of_pos, h2, h]
    · have h' : (kv.1 == k) = false := by simpa using h
      have h2 : ((f kv).1 == k) = false := by rw [hf]; exact h'
      simp [List.find?_cons_of_neg, h2, h', ih]

theorem lookupCE_consolidateStep (m : List (String × CEdge)) (e : EdgeRec)
    (k : String) :
    lookupCE k (consolidateStep m e) =
      if edgeKey e == k then
        match lookupCE k m with
        | some c => some { c with count := c.count + 1 }
        | none => some ⟨e.source, e.target, 1, e.edgeType⟩
      else lookupCE k m := by
  unfold consolidateStep lookupCE
  by_cases hany : m.any (fun kv => kv.1 == edgeKey e)
  · rw [if_pos hany]
    rw [find?_map_key_preserving _ _
      (fun kv => by by_cases hkv : kv.1 == edgeKey e <;> simp [hkv])]
    by_cases hk : edgeKey e == k
    · have hke : edgeKey e = k := beq_iff_eq.mp hk
      have hsome : (m.find? (fun kv => kv.1 == k)).isSome := by
        rw [List.find?_isSome]
        obtain ⟨kv, hmem, hkv⟩ := List.any_eq_true.mp hany
        exact ⟨kv, hmem, by rw [← hke]; exact hkv⟩
      obtain ⟨kv, hkv⟩ := Option.isSome_iff_exists.mp hsome
      have hkvk : (kv.1 == k) = true := by
        have h0 := List.find?_some hkv
        simpa using h0
      have hkve : (kv.1 == edgeKey e) = true := by rw [hke]; exact hkvk
      rw [hkv]
      have hkeq : kv.1 = edgeKey e := beq_iff_eq.mp hkve
      simp [hk, hkve, hkeq]
    · have hk' : (edgeKey e == k) = false := by simpa using hk
      cases hfind : m.find? (fun kv => kv.1 == k) with
      | none => simp [hk', hfind]
      | some kv =>
        have hkvk : (kv.1 == k) = true := by
          have h0 := List.find?_some hfind
          simpa using h0
        have hkve : (kv.1 == edgeKey e) = false := by
          have h1 : kv.1 = k := beq_iff_eq.mp hkvk
          have h2 : ¬ edgeKey e = k := by simpa using hk
          rw [h1]
          exact beq_eq_false_iff_ne.mpr (fun hq => h2 hq.symm)
        have hkne : kv.1 ≠ edgeKey e := beq_eq_false_iff_ne.mp hkve
        simp [hk', hfind, hkne]
  · rw [if_neg hany]
    rw [find?_append_orO]
    have hnone : m.find? (fun kv => kv.1 == k) = none ∨ ¬ (edgeKey e == k) := by
      by_cases hk : edgeKey e == k
      · left
        rw [List.find?_eq_none]
        intro kv hmem hkv
        apply hany
        rw [List.any_eq_true]
        refine ⟨kv, hmem, ?_⟩
        have hke : edgeKey e = k := beq_iff_eq.mp hk
        rw [hke]
        exact hkv
      · right; exact hk
    by_cases hk : edgeKey e == k
    · rcases hnone with hnone | hcontra
      · simp [hnone, none_orO, hk, List.find?_cons]
      · exact absurd hk hcontra
    · have hk' : (edgeKey e == k) = false := by simpa using hk
      cases hfind : m.find? (fun kv => kv.1 == k) with
      | none => simp [hfind, none_orO, hk', List.find?_cons]
      | some kv => simp [hfind, some_orO, hk']

theorem lookupCE_consolidate_fold (l : List EdgeRec) :
    ∀ (m : List (String × CEdge)) (k : String),
    lookupCE k (l.foldl consolidateStep m) =
      match lookupCE k m with
      | some c =>
          some { c with
                 count := c.count + (l.filter (fun e => edgeKey e == k)).length }
      | none =>
          match l.filter (fun e => edgeKey e == k) with
          | [] => none
          | h :: _ =>
              some ⟨h.source, h.target,
                    (l.filter (fun e => edgeKey e == k)).length, h.edgeType⟩ := by
  induction l with
  | nil =>
    intro m k
    cases hm : lookupCE k m <;> simp [hm]
  | cons e t ih =>
    intro m k
    rw [List.foldl_cons, ih]
    rw [lookupCE_consolidateStep]
    by_cases hk : edgeKey e == k
    · have hfil : (e :: t).filter (fun e => edgeKey e == k) =
          e :: t.filter (fun e => edgeKey e == k) := by
        simp [List.filter_cons, hk]
      cases hm : lookupCE k m with
      | some c =>
        simp only [hk, if_true, hm, hfil]
        congr 1
        cases c
        simp
        omega
      | none =>
        simp only [hk, if_true, hm, hfil]
        cases ht : t.filter (fun e => edgeKey e == k) <;> simp [ht] <;> omega
    · have hk' : (edgeKey e == k) = false := by simpa using hk
      have hfil : (e :: t).filter (fun e => edgeKey e == k) =
          t.filter (fun e => edgeKey e == k) := by
        simp [List.filter_cons, hk']
      simp only [hk', Bool.false_eq_true, if_false, hfil]

/-- C3: for every input edge sequence, the consolidated entry of a key holds
the fields of the first occurrence of that key together with the total
number of occurrences of that key (a new key starts at 1, each repeat
increments); in particular three identical rows (source "1", target "2")
yield exactly one consolidated edge with count 3. -/
theorem c3_consolidation_first_type_and_count (ed : List EdgeRec) (k : String) :
    (lookupCE k (consolidatedEdges ed) =
      match ed.filter (fun e => edgeKey e == k) with
      | [] => none
      | h :: _ =>
          some ⟨h.source, h.target,
                (ed.filter (fun e => edgeKey e == k)).length, h.edgeType⟩) ∧
    consolidatedEdges
        [⟨"1", "2", none⟩, ⟨"1", "2", none⟩, ⟨"1", "2", none⟩] =
      [("1-2", ⟨"1", "2", 3, none⟩)] := by
  constructor
  · rw [consolidatedEdges, lookupCE_consolidate_fold]
    rfl
  · decide

theorem filter_insertLW (m : List NodeData) (n : NodeData) (x : String)
    (o : Option NodeData)
    (h : m.filter (fun y => y.id == x) = o.toList) :
    (insertLW m n).filter (fun y => y.id == x) =
      (if n.id == x then some n else o).toList := by
  unfold insertLW
  by_cases hany : m.any (fun y => y.id == n.id)
  · rw [if_pos hany]
    by_cases hx : n.id == x
    · have hxe : n.id = x := beq_iff_eq.mp hx
      have hcong : ∀ y ∈ m,
          ((if y.id == n.id then n else y).id == x) = (y.id == x) := by
        intro y _
        by_cases hy : y.id == n.id
        · have hye : y.id = n.id := beq_iff_eq.mp hy
          simp [hy, hx, hye, hxe]
        · simp [hy]
      rw [List.filter_map]
      simp only [Function.comp_def]
      rw [List.filter_congr hcong, h]
      obtain ⟨y, hym, hyid⟩ := List.any_eq_true.mp hany
      have hmemf : y ∈ m.filter (fun y => y.id == x) := by
        refine List.mem_filter.mpr ⟨hym, ?_⟩
        rw [hxe] at hyid
        exact hyid
      rw [h] at hmemf
      cases o with
      | none => simp at hmemf
      | some a =>
        have hya : y = a := by simpa using hmemf
        have ha : (a.id == x) = true := by
          rw [← hya]
          rw [hxe] at hyid
          exact hyid
        have hae : a.id = x := beq_iff_eq.mp ha
        have haeq : a.id = n.id := by rw [hae, hxe]
        simp [hx, haeq]
    · have hx' : (n.id == x) = false := by simpa using hx
      have hcong : ∀ y ∈ m,
          ((if y.id == n.id then n else y).id == x) = (y.id == x) := by
        intro y _
        by_cases hy : y.id == n.id
        · have hye : y.id = n.id := beq_iff_eq.mp hy
          simp [hy, hx', hye]
        · simp [hy]
      rw [List.filter_map]
      simp only [Function.comp_def]
      rw [List.filter_congr hcong, h]
      cases o with
      | none => simp [hx']
      | some a =>
        have ha : (a.id == x) = true := by
          have hmem : a ∈ m.filter (fun y => y.id == x) := by
            rw [h]; simp
          exact (List.mem_filter.mp hmem).2
        have hae : a.id = x := beq_iff_eq.mp ha
        have hane : a.id ≠ n.id := by
          have hne : n.id ≠ x := by simpa using hx
          rw [hae]
          exact fun hq => hne hq.symm
        simp [hx', hane]
  · rw [if_neg hany, List.filter_append, h]
    by_cases hx : n.id == x
    · cases o with
      | some a =>
        exfalso
        have hxe : n.id = x := beq_iff_eq.mp hx
        have ha : a ∈ m.filter (fun y => y.id == x) := by rw [h]; simp
        obtain ⟨ham, haid⟩ := List.mem_filter.mp ha
        apply hany
        rw [List.any_eq_true]
        refine ⟨a, ham, ?_⟩
        rw [hxe]
        exact haid
      | none => simp [hx]
    · have hx' : (n.id == x) = false := by simpa using hx
      simp [hx']

theorem filter_foldl_insertLW (l : List NodeData) :
    ∀ (m : List NodeData) (o : Option NodeData) (x : String),
    m.filter (fun y => y.id == x) = o.toList →
    (l.foldl insertLW m).filter (fun y => y.id == x) =
      (l.foldl (fun acc n => if n.id == x then some n else acc) o).toList := by
  induction l with
  | nil =>
    intro m o x h
    simpa using h
  | cons n t ih =>
    intro m o x h
    rw [List.foldl_cons, List.foldl_cons]
    exact ih _ _ x (filter_insertLW m n x o h)

theorem foldl_opt_keep_last (l : List NodeData) :
    ∀ (o : Option NodeData) (x : String),
    l.foldl (fun acc n => if n.id == x then some n else acc) o =
      orO (l.reverse.find? (fun y => y.id == x)) o := by
  induction l with
  | nil =>
    intro o x
    simp [none_orO]
  | cons n t ih =>
    intro o x
    rw [List.foldl_cons, ih, List.reverse_cons, find?_append_orO]
    by_cases hx : n.id == x
    · have hfind : ([n].find? (fun y => y.id == x)) = some n :=
        List.find?_cons_of_pos _ hx
      simp only [hfind, hx, if_true]
      cases t.reverse.find? (fun y => y.id == x) <;> rfl
    · have hx' : (n.id == x) = false := by simpa using hx
      have hfind : ([n].find? (fun y => y.id == x)) = none := by
        rw [List.find?_cons_of_neg]
        · rfl
        · simp [hx']
      simp only [hfind, hx', Bool.false_eq_true, if_false, orO_none]

theorem dedupLW_filter (l : List NodeData) (x : String) :
    (dedupLW l).filter (fun y => y.id == x) =
      (l.reverse.find? (fun y => y.id == x)).toList := by
  rw [dedupLW, filter_foldl_insertLW l [] none x (by simp),
    foldl_opt_keep_last, orO_none]

theorem filter_fwStep (m : List NodeData) (n : NodeData) (x : String)
    (o : Option NodeData)
    (h : m.filter (fun y => y.id == x) = o.toList) :
    ((if m.any (fun y => y.id == n.id) then m else m ++ [n]).filter
        (fun y => y.id == x)) =
      (if n.id == x then orO o (some n) else o).toList := by
  by_cases hany : m.any (fun y => y.id == n.id)
  · rw [if_pos hany, h]
    by_cases hx : n.id == x
    · have hxe : n.id = x := beq_iff_eq.mp hx
      cases o with
      | some a => simp [hx, some_orO]
      | none =>
        exfalso
        obtain ⟨y, hym, hyid⟩ := List.any_eq_true.mp hany
        have hmemf : y ∈ m.filter (fun y => y.id == x) := by
          refine List.mem_filter.mpr ⟨hym, ?_⟩
          rw [hxe] at hyid
          exact hyid
        rw [h] at hmemf
        simp at hmemf
    · simp [hx]
  · rw [if_neg hany, List.filter_append, h]
    by_cases hx : n.id == x
    · have hxe : n.id = x := beq_iff_eq.mp hx
      cases o with
      | some a =>
        exfalso
        have ha : a ∈ m.filter (fun y => y.id == x) := by rw [h]; simp
        obtain ⟨ham, haid⟩ := List.mem_filter.mp ha
        apply hany
        rw [List.any_eq_true]
        refine ⟨a, ham, ?_⟩
        rw [hxe]
        exact haid
      | none => simp [hx, none_orO]
    · have hx' : (n.id == x) = false := by simpa using hx
      simp [hx']

theorem filter_foldl_fw (l : List NodeData) :
    ∀ (m : List NodeData) (o : Option NodeData) (x : String),
    m.filter (fun y => y.id == x) = o.toList →
    ((l.foldl
        (fun m n => if m.any (fun y => y.id == n.id) then m else m ++ [n])
        m).filter (fun y => y.id == x)) =
      (l.foldl (fun acc n => if n.id == x then orO acc (some n) else acc)
        o).toList := by
  induction l with
  | nil =>
    intro m o x h
    simpa using h
  | cons n t ih =>
    intro m o x h
    rw [List.foldl_cons, List.foldl_cons]
    exact ih _ _ x (filter_fwStep m n x o h)

theorem foldl_opt_keep_first (l : List NodeData) :
    ∀ (o : Option NodeData) (x : String),
    l.foldl (fun acc n => if n.id == x then orO acc (some n) else acc) o =
      orO o (l.find? (fun y => y.id == x)) := by
  induction l with
  | nil =>
    intro o x
    simp [orO_none]
  | cons n t ih =>
    intro o x
    rw [List.foldl_cons, ih]
    by_cases hx : n.id == x
    · have hcons : List.find? (fun y => y.id == x) (n :: t) = some n :=
        List.find?_cons_of_pos _ hx
      rw [hcons]
      simp only [hx, if_true]
      cases o <;> rfl
    · have hx' : (n.id == x) = false := by simpa using hx
      have hcons : List.find? (fun y => y.id == x) (n :: t) =
          List.find? (fun y => y.id == x) t :=
        List.find?_cons_of_neg _ (by simp [hx'])
      rw [hcons]
      simp only [hx', Bool.false_eq_true, if_false]

theorem dedupFW_filter (l : List NodeData) (x : String) :
    (dedupFW l).filter (fun y => y.id == x) =
      (l.find? (fun y => y.id == x)).toList := by
  rw [dedupFW, filter_foldl_fw l [] none x (by simp),
    foldl_opt_keep_first, none_orO]

/-- C2 amended: both deduplications yield exactly one node per present id,
but they disagree on which record survives.  The Map-constructor normalizer
of `loadAndProcessCSVFiles` (and the chunked loader's accumulated map) is
last-write-wins — the surviving record is the last occurrence in input
order — while `updateGraph`'s normalizer keeps the first occurrence.  On
[{id:"1",type:"A"},{id:"1",type:"B"}] the former yields type "B", the
latter type "A". -/
theorem c2_dedup_one_per_id_lw_and_fw (l : List NodeData) (x : String) :
    ((dedupLW l).filter (fun y => y.id == x) =
       (l.reverse.find? (fun y => y.id == x)).toList) ∧
    ((dedupFW l).filter (fun y => y.id == x) =
       (l.find? (fun y => y.id == x)).toList) ∧
    dedupLW [⟨"1", "A", none⟩, ⟨"1", "B", none⟩] = [⟨"1", "B", none⟩] ∧
    dedupFW [⟨"1", "A", none⟩, ⟨"1", "B", none⟩] = [⟨"1", "A", none⟩] := by
  exact ⟨dedupLW_filter l x, dedupFW_filter l x, by decide, by decide⟩

/-- C2 counterexample: the normalizer of `updateGraph`
(`src/unnamed/part_000` lines 136-142) applied to
[{id:"1",type:"A"},{id:"1",type:"B"}] keeps the FIRST record, so the sole
surviving node has type "A", not "B" — the claimed last-write-wins output
is refuted for this normalizer. -/
theorem c2_first_wins_counterexample :
    (dedupFW [⟨"1", "A", none⟩, ⟨"1", "B", none⟩]).map
        (fun n => n.type) = ["A"] ∧
    ¬ ((dedupFW [⟨"1", "A", none⟩, ⟨"1", "B", none⟩]).map
        (fun n => n.type) = ["B"]) := by
  decide

theorem colorEntriesFrom_append (D S : List String) :
    ∀ i, colorEntriesFrom i (D ++ S) =
      colorEntriesFrom i D ++ colorEntriesFrom (i + D.length) S := by
  induction D with
  | nil => intro i; simp [colorEntriesFrom]
  | cons d t ih =>
    intro i
    have h1 : (d :: t) ++ S = d :: (t ++ S) := rfl
    rw [h1]
    simp only [colorEntriesFrom]
    rw [ih (i + 1)]
    simp only [List.cons_append, List.length_cons]
    have h2 : i + 1 + t.length = i + (t.length + 1) := by omega
    rw [h2]

theorem colorEntriesFrom_find?_isSome (ty : String) (D : List String) :
    ∀ i, ((colorEntriesFrom i D).find? (fun kv => kv.1 == ty)).isSome =
      D.any (fun t => t == ty) := by
  induction D with
  | nil => intro i; rfl
  | cons d t ih =>
    intro i
    by_cases hd : d == ty
    · have hcons : (colorEntriesFrom i (d :: t)).find? (fun kv => kv.1 == ty) =
          some (d, colors10.getD (i % colors10.length) "") :=
        List.find?_cons_of_pos _ hd
      rw [hcons]
      simp [hd]
    · have hd' : (d == ty) = false := by simpa using hd
      have hcons : (colorEntriesFrom i (d :: t)).find? (fun kv => kv.1 == ty) =
          (colorEntriesFrom (i + 1) t).find? (fun kv => kv.1 == ty) :=
        List.find?_cons_of_neg _ (by simp [hd'])
      rw [hcons, ih (i + 1)]
      simp [hd']

theorem getTypeColorMap_fold (l : List NodeData) :
    ∀ (D : List String),
    l.foldl
      (fun (st : List (String × String) × Nat) node =>
        if (st.1.find? (fun kv => kv.1 == node.type)).isSome then st
        else (st.1 ++ [(node.type, colors10.getD (st.2 % colors10.length) "")],
              st.2 + 1))
      (colorEntriesFrom 0 D, D.length) =
    (colorEntriesFrom 0
       (l.foldl
         (fun acc node => if acc.any (fun ty => ty == node.type) then acc
                          else acc ++ [node.type]) D),
     (l.foldl
       (fun acc node => if acc.any (fun ty => ty == node.type) then acc
                        else acc ++ [node.type]) D).length) := by
  induction l with
  | nil => intro D; rfl
  | cons n t ih =>
    intro D
    rw [List.foldl_cons, List.foldl_cons]
    by_cases hmem : D.any (fun ty => ty == n.type)
    · have hfind : ((colorEntriesFrom 0 D).find?
          (fun kv => kv.1 == n.type)).isSome = true := by
        rw [colorEntriesFrom_find?_isSome]
        exact hmem
      simp only [hfind, if_true, hmem]
      exact ih D
    · have hmem' : (D.any (fun ty => ty == n.type)) = false :=
        Bool.eq_false_iff.mpr hmem
      have hfind : ((colorEntriesFrom 0 D).find?
          (fun kv => kv.1 == n.type)).isSome = false := by
        rw [colorEntriesFrom_find?_isSome]
        exact hmem'
      simp only [hfind, Bool.false_eq_true, if_false, hmem']
      have happ : colorEntriesFrom 0 D ++
            [(n.type, colors10.getD (D.length % colors10.length) "")] =
          colorEntriesFrom 0 (D ++ [n.type]) := by
        rw [colorEntriesFrom_append]
        simp [colorEntriesFrom]
      rw [happ]
      have hlen : D.length + 1 = (D ++ [n.type]).length := by simp
      rw [hlen]
      exact ih (D ++ [n.type])

theorem getTypeColorMap_eq_entries (nd : List NodeData) :
    getTypeColorMap nd = colorEntriesFrom 0 (distinctTypes nd) := by
  rw [getTypeColorMap, distinctTypes]
  have h := getTypeColorMap_fold nd []
  simp only [colorEntriesFrom, List.length_nil] at h
  rw [h]

theorem distinct_fold_suffix (ext : List NodeData) :
    ∀ D : List String, ∃ S : List String,
      ext.foldl
        (fun acc node => if acc.any (fun ty => ty == node.type) then acc
                         else acc ++ [node.type]) D = D ++ S := by
  induction ext with
  | nil =>
    intro D
    exact ⟨[], by simp⟩
  | cons n t ih =>
    intro D
    rw [List.foldl_cons]
    by_cases hmem : D.any (fun ty => ty == n.type)
    · simp only [hmem, if_true]
      exact ih D
    · have hmem' : (D.any (fun ty => ty == n.type)) = false :=
        Bool.eq_false_iff.mpr hmem
      simp only [hmem', Bool.false_eq_true, if_false]
      obtain ⟨S, hS⟩ := ih (D ++ [n.type])
      exact ⟨[n.type] ++ S, by rw [hS, List.append_assoc]⟩

theorem lookupTC_append_stable (t : String) (D S : List String)
    (h : (lookupTC t (colorEntriesFrom 0 D)).isSome = true) :
    lookupTC t (colorEntriesFrom 0 (D ++ S)) =
      lookupTC t (colorEntriesFrom 0 D) := by
  rw [lookupTC, lookupTC, colorEntriesFrom_append, find?_append_orO]
  rw [lookupTC] at h
  cases hf : (colorEntriesFrom 0 D).find? (fun kv => kv.1 == t) with
  | none =>
    rw [hf] at h
    simp at h
  | some kv => rfl

/-- C4 amended: the palette-based assignments (`getTypeColorMap`, and the
identical algorithm inside `updateGraph`) are deterministic and stable under
first-seen ordering: the N-th distinct type receives
`colors[N % colors.length]`, an assigned type keeps its color under any
extension of the input, and feeding types [A,B,A,C] assigns palette 0,1,2 to
A,B,C.  The chunked variant's `getColorForType`, however, is a fixed
name-keyed table and does not follow first-seen palette order (see the
counterexample). -/
theorem c4_type_color_assignment_amended (nd ext : List NodeData) (t : String)
    (h : (lookupTC t (getTypeColorMap nd)).isSome = true) :
    getTypeColorMap nd = colorEntriesFrom 0 (distinctTypes nd) ∧
    lookupTC t (getTypeColorMap (nd ++ ext)) =
      lookupTC t (getTypeColorMap nd) ∧
    getTypeColorMap
        [⟨"a1", "A", none⟩, ⟨"b1", "B", none⟩, ⟨"a2", "A", none⟩,
         ⟨"c1", "C", none⟩] =
      [("A", "#ff6f61"), ("B", "#6b5b95"), ("C", "#88b04b")] := by
  refine ⟨getTypeColorMap_eq_entries nd, ?_, by decide⟩
  rw [getTypeColorMap_eq_entries nd] at h
  rw [getTypeColorMap_eq_entries, getTypeColorMap_eq_entries]
  have hfold : distinctTypes (nd ++ ext) =
      ext.foldl
        (fun acc node => if acc.any (fun ty => ty == node.type) then acc
                         else acc ++ [node.type]) (distinctTypes nd) := by
    rw [distinctTypes, distinctTypes, List.foldl_append]
  obtain ⟨S, hS⟩ := distinct_fold_suffix ext (distinctTypes nd)
  rw [hfold, hS]
  exact lookupTC_append_stable t _ S h

/-- C4 witness: the amended theorem applied to the concrete [A,B,A,C] input
extended by a later type D — the color of A is unchanged. -/
theorem c4_type_color_assignment_witness :
    (lookupTC "A" (getTypeColorMap
        [⟨"a1", "A", none⟩, ⟨"b1", "B", none⟩, ⟨"a2", "A", none⟩,
         ⟨"c1", "C", none⟩])).isSome = true ∧
    lookupTC "A" (getTypeColorMap
        ([⟨"a1", "A", none⟩, ⟨"b1", "B", none⟩, ⟨"a2", "A", none⟩,
          ⟨"c1", "C", none⟩] ++ [⟨"d1", "D", none⟩])) =
      lookupTC "A" (getTypeColorMap
        [⟨"a1", "A", none⟩, ⟨"b1", "B", none⟩, ⟨"a2", "A", none⟩,
         ⟨"c1", "C", none⟩]) := by
  constructor
  · decide
  · exact (c4_type_color_assignment_amended _ [⟨"d1", "D", none⟩] "A"
      (by decide)).2.1

/-- C4 counterexample: `getColorForType` of the chunked variant assigns by
type NAME, not by first-seen order: the first distinct types A, B, C all
receive "gray", which is not a palette entry at all, while Type1/Type2 get
fixed colors regardless of encounter order — refuting
"the N-th distinct type is assigned palette[N mod paletteSize]". -/
theorem c4_getColorForType_counterexample :
    getColorForType "A" = "gray" ∧ getColorForType "B" = "gray" ∧
    getColorForType "C" = "gray" ∧ "gray" ∉ colors10 ∧
    getColorForType "Type1" = "red" ∧ getColorForType "Type2" = "blue" := by
  decide

theorem bool_eq_of_iff {a b : Bool} (h : a = true ↔ b = true) : a = b := by
  cases a <;> cases b <;> simp_all

theorem hasId_append (l₁ l₂ : List NodeData) (x : String) :
    hasId (l₁ ++ l₂) x = (hasId l₁ x || hasId l₂ x) := by
  rw [hasId, hasId, hasId, List.any_append]

theorem hasId_insertLW (m : List NodeData) (n : NodeData) (x : String) :
    hasId (insertLW m n) x = true ↔ hasId m x = true ∨ n.id = x := by
  unfold insertLW hasId
  by_cases hany : m.any (fun y => y.id == n.id)
  · rw [if_pos hany, List.any_map]
    have hpt : ((fun y => y.id == x) ∘
        fun y => if y.id == n.id then n else y) = (fun y => y.id == x) := by
      funext y
      by_cases hy : y.id == n.id
      · have hye : y.id = n.id := beq_iff_eq.mp hy
        simp [Function.comp, hy, hye]
      · simp [Function.comp, hy]
    rw [hpt]
    constructor
    · exact fun h => Or.inl h
    · rintro (h | h)
      · exact h
      · obtain ⟨y, hym, hyid⟩ := List.any_eq_true.mp hany
        rw [List.any_eq_true]
        refine ⟨y, hym, ?_⟩
        have : y.id = n.id := beq_iff_eq.mp hyid
        rw [this, h]
        exact beq_self_eq_true x
  · rw [if_neg hany, List.any_append]
    simp [List.any_cons]

theorem hasId_foldl_insertLW (l : List NodeData) :
    ∀ (m : List NodeData) (x : String),
    hasId (l.foldl insertLW m) x = true ↔
      hasId m x = true ∨ hasId l x = true := by
  induction l with
  | nil =>
    intro m x
    simp [hasId]
  | cons n t ih =>
    intro m x
    rw [List.foldl_cons, ih]
    rw [hasId_insertLW]
    have hcons : hasId (n :: t) x = true ↔ n.id = x ∨ hasId t x = true := by
      unfold hasId
      simp [List.any_cons]
    rw [hcons]
    tauto

theorem dedupLW_hasId (l : List NodeData) (x : String) :
    hasId (dedupLW l) x = hasId l x := by
  apply bool_eq_of_iff
  rw [dedupLW, hasId_foldl_insertLW]
  simp [hasId]

theorem any_numberFrom (l : List NodeData) (x : String) :
    ∀ k, ((numberFrom k l).any (fun p => p.2.id == x)) =
      l.any (fun n => n.id == x) := by
  induction l with
  | nil => intro k; rfl
  | cons n t ih =>
    intro k
    simp [numberFrom, List.any_cons, ih (k + 1)]

theorem nodeHasId_buildChunk (g : BGraph) (m : List NodeData)
    (ec : List EdgeData) (x : String) :
    nodeHasId (buildChunk g m ec) x = true ↔
      nodeHasId g x = true ∨ hasId m x = true := by
  unfold nodeHasId buildChunk hasId
  rw [List.any_append, any_numberFrom]
  simp

theorem resolveIdx_isSome (p : NodeData → Bool) (l : List NodeData) :
    (resolveIdx p l).isSome = l.any p := by
  induction l with
  | nil => rfl
  | cons n t ih =>
    by_cases h : p n
    · simp [resolveIdx, h]
    · have h' : p n = false := by simpa using h
      simp only [resolveIdx, h', Bool.false_eq_true, if_false, List.any_cons]
      cases hr : resolveIdx p t with
      | none =>
        rw [hr] at ih
        simp [← ih]
      | some i =>
        rw [hr] at ih
        simp [← ih]

theorem resolveIdx_isSome_of_hasId (l : List NodeData) (x : String)
    (h : hasId l x = true) :
    ∃ i, resolveIdx (fun n => n.id == x) l = some i := by
  have hs : (resolveIdx (fun n => n.id == x) l).isSome = true := by
    rw [resolveIdx_isSome]
    exact h
  exact Option.isSome_iff_exists.mp hs

theorem edgeStep_none_src (nd : List NodeData) (k : Nat) (acc : List EntEdge)
    (e : EdgeData) (h : resolveIdx (fun n => n.id == e.source) nd = none) :
    edgeStep nd k acc e = acc := by
  unfold edgeStep
  rw [h]

theorem edgeStep_none_tgt (nd : List NodeData) (k : Nat) (acc : List EntEdge)
    (e : EdgeData) (si : Nat)
    (hs : resolveIdx (fun n => n.id == e.source) nd = some si)
    (h : resolveIdx (fun n => n.id == e.target) nd = none) :
    edgeStep nd k acc e = acc := by
  unfold edgeStep
  rw [hs, h]

theorem edgeStep_some (nd : List NodeData) (k : Nat) (acc : List EntEdge)
    (e : EdgeData) (si ti : Nat)
    (hs : resolveIdx (fun n => n.id == e.source) nd = some si)
    (ht : resolveIdx (fun n => n.id == e.target) nd = some ti) :
    edgeStep nd k acc e = acc ++ [⟨k + si, k + ti, e.source, e.target⟩] := by
  unfold edgeStep
  rw [hs, ht]

theorem edgeFold_mem (nd : List NodeData) (k : Nat) (ed : List EdgeData) :
    ∀ (acc : List EntEdge) (ee : EntEdge),
    ee ∈ ed.foldl (edgeStep nd k) acc ↔
      ee ∈ acc ∨ ∃ e ∈ ed, ∃ si ti,
        resolveIdx (fun n => n.id == e.source) nd = some si ∧
        resolveIdx (fun n => n.id == e.target) nd = some ti ∧
        ee = ⟨k + si, k + ti, e.source, e.target⟩ := by
  induction ed with
  | nil =>
    intro acc ee
    simp
  | cons e t ih =>
    intro acc ee
    rw [List.foldl_cons, ih]
    cases hs : resolveIdx (fun n => n.id == e.source) nd with
    | none =>
      rw [edgeStep_none_src nd k acc e hs]
      constructor
      · rintro (h | h)
        · exact Or.inl h
        · right
          obtain ⟨e', he', rest⟩ := h
          exact ⟨e', List.mem_cons_of_mem _ he', rest⟩
      · rintro (h | ⟨e', he', si, ti, hsi, hti, hee⟩)
        · exact Or.inl h
        · rcases List.mem_cons.mp he' with he'' | he''
          · subst he''
            rw [hs] at hsi
            exact absurd hsi (by simp)
          · exact Or.inr ⟨e', he'', si, ti, hsi, hti, hee⟩
    | some si =>
      cases ht : resolveIdx (fun n => n.id == e.target) nd with
      | none =>
        rw [edgeStep_none_tgt nd k acc e si hs ht]
        constructor
        · rintro (h | h)
          · exact Or.inl h
          · right
            obtain ⟨e', he', rest⟩ := h
            exact ⟨e', List.mem_cons_of_mem _ he', rest⟩
        · rintro (h | ⟨e', he', si', ti', hsi, hti, hee⟩)
          · exact Or.inl h
          · rcases List.mem_cons.mp he' with he'' | he''
            · subst he''
              rw [ht] at hti
              exact absurd hti (by simp)
            · exact Or.inr ⟨e', he'', si', ti', hsi, hti, hee⟩
      | some ti =>
        rw [edgeStep_some nd k acc e si ti hs ht]
        constructor
        · rintro (h | h)
          · rcases List.mem_append.mp h with h' | h'
            · exact Or.inl h'
            · right
              refine ⟨e, List.mem_cons_self e t, si, ti, hs, ht, ?_⟩
              simpa using h'
          · right
            obtain ⟨e', he', rest⟩ := h
            exact ⟨e', List.mem_cons_of_mem _ he', rest⟩
        · rintro (h | ⟨e', he', si', ti', hsi, hti, hee⟩)
          · exact Or.inl (List.mem_append.mpr (Or.inl h))
          · rcases List.mem_cons.mp he' with he'' | he''
            · subst he''
              rw [hs] at hsi
              rw [ht] at hti
              left
              rw [List.mem_append]
              right
              simp only [Option.some.injEq] at hsi hti
              subst hsi
              subst hti
              simp [hee]
            · exact Or.inr ⟨e', he'', si', ti', hsi, hti, hee⟩

theorem edgeHasPair_buildChunk (g : BGraph) (m : List NodeData)
    (ec : List EdgeData) (a b : String) :
    edgeHasPair (buildChunk g m ec) a b = true ↔
      edgeHasPair g a b = true ∨
      ∃ e ∈ ec, e.source = a ∧ e.target = b ∧
        hasId m a = true ∧ hasId m b = true := by
  unfold edgeHasPair buildChunk
  rw [List.any_append]
  simp only [Bool.or_eq_true]
  constructor
  · rintro (h | h)
    · exact Or.inl h
    · right
      obtain ⟨ee, hee, hpred⟩ := List.any_eq_true.mp h
      rw [edgeFold_mem] at hee
      rcases hee with hee | ⟨e, hemem, si, ti, hsi, hti, heq⟩
      · simp at hee
      · refine ⟨e, hemem, ?_, ?_, ?_, ?_⟩
        · subst heq
          simp only [Bool.and_eq_true, beq_iff_eq] at hpred
          exact hpred.1
        · subst heq
          simp only [Bool.and_eq_true, beq_iff_eq] at hpred
          exact hpred.2
        · subst heq
          simp only [Bool.and_eq_true, beq_iff_eq] at hpred
          rw [hasId, ← hpred.1, ← resolveIdx_isSome, hsi]
          rfl
        · subst heq
          simp only [Bool.and_eq_true, beq_iff_eq] at hpred
          rw [hasId, ← hpred.2, ← resolveIdx_isSome, hti]
          rfl
  · rintro (h | ⟨e, hemem, hsrc, htgt, hma, hmb⟩)
    · exact Or.inl h
    · right
      rw [List.any_eq_true]
      obtain ⟨si, hsi⟩ := resolveIdx_isSome_of_hasId m e.source (by rw [hsrc]; exact hma)
      obtain ⟨ti, hti⟩ := resolveIdx_isSome_of_hasId m e.target (by rw [htgt]; exact hmb)
      refine ⟨⟨g.nextId + si, g.nextId + ti, e.source, e.target⟩, ?_, ?_⟩
      · rw [edgeFold_mem]
        exact Or.inr ⟨e, hemem, si, ti, hsi, hti, rfl⟩
      · simp [hsrc, htgt]

theorem chunkStep_inv (ed : List EdgeData) (P : List NodeData)
    (st : List NodeData × BGraph) (c : List NodeData)
    (hm : ∀ x, hasId st.1 x = true ↔ hasId P x = true)
    (hn : ∀ x, nodeHasId st.2 x = true ↔ hasId P x = true)
    (he : ∀ a b, edgeHasPair st.2 a b = true ↔
      ∃ e ∈ ed, e.source = a ∧ e.target = b ∧
        hasId P a = true ∧ hasId P b = true) :
    (∀ x, hasId (chunkStep ed st c).1 x = true ↔ hasId (P ++ c) x = true) ∧
    (∀ x, nodeHasId (chunkStep ed st c).2 x = true ↔
       hasId (P ++ c) x = true) ∧
    (∀ a b, edgeHasPair (chunkStep ed st c).2 a b = true ↔
       ∃ e ∈ ed, e.source = a ∧ e.target = b ∧
         hasId (P ++ c) a = true ∧ hasId (P ++ c) b = true) := by
  have hm' : ∀ x, hasId (c.foldl insertLW st.1) x = true ↔
      hasId (P ++ c) x = true := by
    intro x
    rw [hasId_foldl_insertLW, hm x, hasId_append]
    simp
  refine ⟨hm', ?_, ?_⟩
  · intro x
    unfold chunkStep
    rw [nodeHasId_buildChunk, hn x, hm' x, hasId_append]
    simp only [Bool.or_eq_true]
    tauto
  · intro a b
    unfold chunkStep
    rw [edgeHasPair_buildChunk, he a b]
    constructor
    · rintro (⟨e, hemem, hsrc, htgt, hPa, hPb⟩ |
              ⟨e, hemem, hsrc, htgt, hma, hmb⟩)
      · refine ⟨e, hemem, hsrc, htgt, ?_, ?_⟩
        · rw [hasId_append, hPa]
          rfl
        · rw [hasId_append, hPb]
          rfl
      · exact ⟨e, (List.mem_filter.mp hemem).1, hsrc, htgt,
          (hm' a).mp hma, (hm' b).mp hmb⟩
    · rintro ⟨e, hemem, hsrc, htgt, hPCa, hPCb⟩
      by_cases hPa : hasId P a = true
      · by_cases hPb : hasId P b = true
        · exact Or.inl ⟨e, hemem, hsrc, htgt, hPa, hPb⟩
        · have hcb : hasId c b = true := by
            rw [hasId_append] at hPCb
            have h2 : hasId P b = true ∨ hasId c b = true := by
              simpa using hPCb
            rcases h2 with h | h
            · exact absurd h hPb
            · exact h
          refine Or.inr ⟨e, ?_, hsrc, htgt, (hm' a).mpr hPCa, (hm' b).mpr hPCb⟩
          rw [List.mem_filter]
          refine ⟨hemem, ?_⟩
          rw [List.any_eq_true]
          obtain ⟨n, hnc, hnid⟩ := List.any_eq_true.mp hcb
          refine ⟨n, hnc, ?_⟩
          have hnb : n.id = b := beq_iff_eq.mp hnid
          have hnt : n.id = e.target := by rw [htgt]; exact hnb
          simp [hnt]
      · have hca : hasId c a = true := by
          rw [hasId_append] at hPCa
          have h2 : hasId P a = true ∨ hasId c a = true := by
            simpa using hPCa
          rcases h2 with h | h
          · exact absurd h hPa
          · exact h
        refine Or.inr ⟨e, ?_, hsrc, htgt, (hm' a).mpr hPCa, (hm' b).mpr hPCb⟩
        rw [List.mem_filter]
        refine ⟨hemem, ?_⟩
        rw [List.any_eq_true]
        obtain ⟨n, hnc, hnid⟩ := List.any_eq_true.mp hca
        refine ⟨n, hnc, ?_⟩
        have hna : n.id = a := beq_iff_eq.mp hnid
        have hns : n.id = e.source := by rw [hsrc]; exact hna
        simp [hns]

theorem chunks_fold_inv (ed : List EdgeData) (cs : List (List NodeData)) :
    ∀ (P : List NodeData) (st : List NodeData × BGraph),
    (∀ x, hasId st.1 x = true ↔ hasId P x = true) →
    (∀ x, nodeHasId st.2 x = true ↔ hasId P x = true) →
    (∀ a b, edgeHasPair st.2 a b = true ↔
       ∃ e ∈ ed, e.source = a ∧ e.target = b ∧
         hasId P a = true ∧ hasId P b = true) →
    (∀ x, hasId (cs.foldl (chunkStep ed) st).1 x = true ↔
       hasId (P ++ cs.flatten) x = true) ∧
    (∀ x, nodeHasId (cs.foldl (chunkStep ed) st).2 x = true ↔
       hasId (P ++ cs.flatten) x = true) ∧
    (∀ a b, edgeHasPair (cs.foldl (chunkStep ed) st).2 a b = true ↔
       ∃ e ∈ ed, e.source = a ∧ e.target = b ∧
         hasId (P ++ cs.flatten) a = true ∧ hasId (P ++ cs.flatten) b = true) := by
  induction cs with
  | nil =>
    intro P st hm hn he
    simp only [List.foldl_nil, List.flatten_nil, List.append_nil]
    exact ⟨hm, hn, he⟩
  | cons c cs ih =>
    intro P st hm hn he
    obtain ⟨hm', hn', he'⟩ := chunkStep_inv ed P st c hm hn he
    have hres := ih (P ++ c) (chunkStep ed st c) hm' hn' he'
    rw [List.foldl_cons]
    have hassoc : P ++ c ++ cs.flatten = P ++ (c :: cs).flatten := by
      rw [List.flatten_cons, List.append_assoc]
    rw [hassoc] at hres
    exact hres

theorem join_slices (nd : List NodeData) (C : Nat) :
    ∀ k, ((List.range k).map (fun i => (nd.drop (i * C)).take C)).flatten =
      nd.take (k * C) := by
  intro k
  induction k with
  | zero => simp
  | succ k ih =>
    rw [List.range_succ, List.map_append, List.flatten_append, ih]
    have hc : (k + 1) * C = k * C + C := by ring
    rw [hc, List.take_add]
    simp

theorem total_covers (C len : Nat) (hC : 1 ≤ C) :
    len ≤ totalChunksOf C len * C := by
  unfold totalChunksOf
  cases len with
  | zero => simp
  | succ m =>
    have hC0 : 0 < C := hC
    have hdiv : (m + 1 + C - 1) / C = m / C + 1 := by
      have h1 : m + 1 + C - 1 = m + C := by omega
      rw [h1]
      exact Nat.add_div_right m hC0
    rw [hdiv]
    have h2 : C * (m / C) + m % C = m := Nat.div_add_mod m C
    have h3 : m % C < C := Nat.mod_lt _ hC0
    have h4 : (m / C + 1) * C = m / C * C + C := by ring
    rw [h4]
    have h5 : m / C * C = C * (m / C) := by ring
    omega

theorem loadBuild_as_chunks (C : Nat) (nd : List NodeData)
    (ed : List EdgeData) (g0 : BGraph) :
    loadGraphInChunksBuild C nd ed g0 =
      ((List.range (totalChunksOf C nd.length)).map
        (fun i => (nd.drop (i * C)).take C)).foldl (chunkStep ed) ([], g0) := by
  rw [loadGraphInChunksBuild, List.foldl_map]

theorem chunked_hasId_and_pairs (C : Nat) (hC : 1 ≤ C) (nd : List NodeData)
    (ed : List EdgeData) :
    (∀ x, nodeHasId (loadGraphInChunksBuild C nd ed BGraph.empty).2 x = true ↔
       hasId nd x = true) ∧
    (∀ a b,
       edgeHasPair (loadGraphInChunksBuild C nd ed BGraph.empty).2 a b = true ↔
       ∃ e ∈ ed, e.source = a ∧ e.target = b ∧
         hasId nd a = true ∧ hasId nd b = true) := by
  rw [loadBuild_as_chunks]
  have hinit1 : ∀ x, hasId (([], BGraph.empty) :
      List NodeData × BGraph).1 x = true ↔ hasId [] x = true := by
    intro x
    exact Iff.rfl
  have hinit2 : ∀ x, nodeHasId (([], BGraph.empty) :
      List NodeData × BGraph).2 x = true ↔ hasId [] x = true := by
    intro x
    constructor
    · intro h
      simp [nodeHasId, BGraph.empty] at h
    · intro h
      simp [hasId] at h
  have hinit3 : ∀ a b, edgeHasPair (([], BGraph.empty) :
      List NodeData × BGraph).2 a b = true ↔
      ∃ e ∈ ed, e.source = a ∧ e.target = b ∧
        hasId [] a = true ∧ hasId [] b = true := by
    intro a b
    constructor
    · intro h
      simp [edgeHasPair, BGraph.empty] at h
    · rintro ⟨e, _, _, _, h, _⟩
      simp [hasId] at h
  obtain ⟨h1, h2, h3⟩ := chunks_fold_inv ed
    ((List.range (totalChunksOf C nd.length)).map
      (fun i => (nd.drop (i * C)).take C)) [] ([], BGraph.empty)
    hinit1 hinit2 hinit3
  rw [join_slices] at h2 h3
  have htake : nd.take (totalChunksOf C nd.length * C) = nd :=
    List.take_of_length_le (total_covers C nd.length hC)
  rw [htake] at h2 h3
  simp only [List.nil_append] at h2 h3
  exact ⟨h2, h3⟩

theorem single_hasId_and_pairs (nd : List NodeData) (ed : List EdgeData) :
    (∀ x, nodeHasId (buildSingleSpec nd ed) x = true ↔ hasId nd x = true) ∧
    (∀ a b, edgeHasPair (buildSingleSpec nd ed) a b = true ↔
       ∃ e ∈ ed, e.source = a ∧ e.target = b ∧
         hasId nd a = true ∧ hasId nd b = true) := by
  constructor
  · intro x
    rw [buildSingleSpec, nodeHasId_buildChunk, dedupLW_hasId]
    constructor
    · rintro (h | h)
      · simp [nodeHasId, BGraph.empty] at h
      · exact h
    · exact fun h => Or.inr h
  · intro a b
    rw [buildSingleSpec, edgeHasPair_buildChunk]
    constructor
    · rintro (h | ⟨e, hemem, hsrc, htgt, ha, hb⟩)
      · simp [edgeHasPair, BGraph.empty] at h
      · rw [dedupLW_hasId] at ha hb
        exact ⟨e, hemem, hsrc, htgt, ha, hb⟩
    · rintro ⟨e, hemem, hsrc, htgt, ha, hb⟩
      right
      rw [dedupLW_hasId, dedupLW_hasId]
      exact ⟨e, hemem, hsrc, htgt, ha, hb⟩

theorem edgeFold_nil_nodes (k : Nat) (l : List EdgeData) :
    ∀ acc, l.foldl (edgeStep [] k) acc = acc := by
  induction l with
  | nil =>
    intro acc
    rfl
  | cons e t ih =>
    intro acc
    rw [List.foldl_cons, edgeStep_none_src [] k acc e rfl]
    exact ih acc

theorem totalChunks_zero (C : Nat) : totalChunksOf C 0 = 0 := by
  unfold totalChunksOf
  cases C with
  | zero => rw [Nat.div_zero]
  | succ c =>
    have h1 : 0 + (c + 1) - 1 = c := by omega
    rw [h1]
    exact Nat.div_eq_of_lt (by omega)

/-- C1 amended: for chunk size C in {1, N, N+1}, the chunked construction
and the single non-chunked construction agree on WHICH node ids are present
and on WHICH (source id, target id) endpoint pairs are materialized as
edges.  (They do not agree on node entities or record values: every chunk
re-feeds the whole accumulated node map to a fresh GraphBuilder, so entity
counts grow per chunk and superseded duplicate-id records are also
materialized — see the counterexample.) -/
theorem c1_chunked_single_id_sets (C : Nat) (nd : List NodeData)
    (ed : List EdgeData)
    (hC : C = 1 ∨ C = nd.length ∨ C = nd.length + 1) (x a b : String) :
    nodeHasId (loadGraphInChunksBuild C nd ed BGraph.empty).2 x =
      nodeHasId (buildSingleSpec nd ed) x ∧
    edgeHasPair (loadGraphInChunksBuild C nd ed BGraph.empty).2 a b =
      edgeHasPair (buildSingleSpec nd ed) a b := by
  by_cases hC1 : 1 ≤ C
  · obtain ⟨hcn, hce⟩ := chunked_hasId_and_pairs C hC1 nd ed
    obtain ⟨hsn, hse⟩ := single_hasId_and_pairs nd ed
    constructor
    · apply bool_eq_of_iff
      rw [hcn x, hsn x]
    · apply bool_eq_of_iff
      rw [hce a b, hse a b]
  · have hC0 : C = 0 := by omega
    have hlen : nd.length = 0 := by
      rcases hC with h | h | h <;> omega
    have hnd : nd = [] := List.length_eq_zero.mp hlen
    subst hnd
    subst hC0
    have hload : loadGraphInChunksBuild 0 [] ed BGraph.empty =
        ([], BGraph.empty) := by
      rw [loadGraphInChunksBuild]
      have htot : totalChunksOf 0 (List.length ([] : List NodeData)) = 0 := by
        rw [List.length_nil, totalChunksOf, Nat.div_zero]
      rw [htot]
      rfl
    have hedges : (buildSingleSpec [] ed).edges = [] := by
      show [] ++ ed.foldl (edgeStep [] 0) [] = []
      rw [List.nil_append, edgeFold_nil_nodes 0 ed []]
    constructor
    · rw [hload]
      rfl
    · rw [hload]
      have h2 : edgeHasPair (buildSingleSpec [] ed) a b = false := by
        rw [edgeHasPair, hedges]
        rfl
      rw [h2]
      rfl

/-- C1 witness: the amended theorem applied to a one-node input at C = 1. -/
theorem c1_chunked_single_witness :
    nodeHasId (loadGraphInChunksBuild 1 [⟨"n1", "T", none⟩] []
        BGraph.empty).2 "n1" =
      nodeHasId (buildSingleSpec [⟨"n1", "T", none⟩] []) "n1" ∧
    edgeHasPair (loadGraphInChunksBuild 1 [⟨"n1", "T", none⟩] []
        BGraph.empty).2 "n1" "n1" =
      edgeHasPair (buildSingleSpec [⟨"n1", "T", none⟩] []) "n1" "n1" :=
  c1_chunked_single_id_sets 1 [⟨"n1", "T", none⟩] [] (Or.inl rfl)
    "n1" "n1" "n1"

/-- C1 counterexample: with nodes [{id:"1",type:"A"},{id:"1",type:"B"}] and
C = 1, the chunked construction also materializes the superseded record
(id "1", type "A") — chunk 0's fresh GraphBuilder builds it before chunk 1
overwrites the map entry — while the single construction materializes only
the final record (type "B").  The final sets of graph nodes differ. -/
theorem c1_chunked_tags_counterexample :
    (⟨"1", "A", none⟩ : NodeData) ∈
      (loadGraphInChunksBuild 1 [⟨"1", "A", none⟩, ⟨"1", "B", none⟩] []
        BGraph.empty).2.nodes.map (fun p => p.2) ∧
    (⟨"1", "A", none⟩ : NodeData) ∉
      (buildSingleSpec [⟨"1", "A", none⟩, ⟨"1", "B", none⟩] []).nodes.map
        (fun p => p.2) := by
  decide

/-- C5 amended: an empty node list yields zero chunks, no progress update
and an empty final graph, but `applyClustering` still runs after the loop
and unconditionally invokes the initial layout once — "no layout
invocation" does not hold. -/
theorem c5_empty_input_run (C : Nat) (ed : List EdgeData) :
    (loadGraphInChunksRun C [] ed BGraph.empty).totalChunks = 0 ∧
    (loadGraphInChunksRun C [] ed BGraph.empty).graph.nodes = [] ∧
    (loadGraphInChunksRun C [] ed BGraph.empty).graph.edges = [] ∧
    (loadGraphInChunksRun C [] ed BGraph.empty).progressUpdates = [] ∧
    (loadGraphInChunksRun C [] ed BGraph.empty).layoutInvocations = 1 := by
  have hload : loadGraphInChunksBuild C [] ed BGraph.empty =
      ([], BGraph.empty) := by
    rw [loadGraphInChunksBuild]
    have htot : totalChunksOf C (List.length ([] : List NodeData)) = 0 := by
      rw [List.length_nil, totalChunks_zero]
    rw [htot]
    rfl
  refine ⟨?_, ?_, ?_, ?_, rfl⟩
  · show totalChunksOf C (List.length ([] : List NodeData)) = 0
    rw [List.length_nil, totalChunks_zero]
  · show (pruneIsolated (loadGraphInChunksBuild C [] ed BGraph.empty).2).nodes = []
    rw [hload]
    rfl
  · show (pruneIsolated (loadGraphInChunksBuild C [] ed BGraph.empty).2).edges = []
    rw [hload]
    rfl
  · show (List.range (totalChunksOf C (List.length ([] : List NodeData)))).map
        (fun i => i + 1) = []
    rw [List.length_nil, totalChunks_zero]
    rfl

/-- C5 counterexample: at the source's chunk size 100 with an empty node
list, the run has zero chunks and an empty graph, yet the layout IS invoked
(once, by `applyClustering` → `applyInitialLayout`), refuting "no layout
invocation occurs". -/
theorem c5_layout_runs_on_empty_counterexample :
    (loadGraphInChunksRun 100 [] [] BGraph.empty).totalChunks = 0 ∧
    (loadGraphInChunksRun 100 [] [] BGraph.empty).graph.nodes = [] ∧
    ¬ ((loadGraphInChunksRun 100 [] [] BGraph.empty).layoutInvocations = 0) := by
  decide

/-- C6: the post-processing of `applyClustering` removes exactly the
isolated nodes of the constructed graph: a node entity of degree 0 is
absent from the final graph, a node entity with at least one incident edge
is kept, and no edge is removed. -/
theorem c6_prune_exactly_isolated (C : Nat) (nd : List NodeData)
    (ed : List EdgeData) (g0 : BGraph) (p : Nat × NodeData)
    (hmem : p ∈ (loadGraphInChunksBuild C nd ed g0).2.nodes) :
    (degree (loadGraphInChunksBuild C nd ed g0).2 p.1 = 0 →
       p ∉ (loadGraphInChunksRun C nd ed g0).graph.nodes) ∧
    (degree (loadGraphInChunksBuild C nd ed g0).2 p.1 ≠ 0 →
       p ∈ (loadGraphInChunksRun C nd ed g0).graph.nodes) ∧
    (loadGraphInChunksRun C nd ed g0).graph.edges =
      (loadGraphInChunksBuild C nd ed g0).2.edges := by
  refine ⟨?_, ?_, rfl⟩
  · intro hdeg hcontra
    have hfilter : p ∈ (loadGraphInChunksBuild C nd ed g0).2.nodes.filter
        (fun q => degree (loadGraphInChunksBuild C nd ed g0).2 q.1 != 0) :=
      hcontra
    have hpred := (List.mem_filter.mp hfilter).2
    rw [hdeg] at hpred
    simp at hpred
  · intro hdeg
    show p ∈ (loadGraphInChunksBuild C nd ed g0).2.nodes.filter
      (fun q => degree (loadGraphInChunksBuild C nd ed g0).2 q.1 != 0)
    rw [List.mem_filter]
    refine ⟨hmem, ?_⟩
    simpa using hdeg

/-- C6 witness: nodes a,b,c with one edge a→b; the isolated node c (entity
id 2) is pruned while a (entity id 0) survives. -/
theorem c6_prune_witness :
    (2, (⟨"c", "T", none⟩ : NodeData)) ∉
      (loadGraphInChunksRun 3
        [⟨"a", "T", none⟩, ⟨"b", "T", none⟩, ⟨"c", "T", none⟩]
        [⟨"a", "b"⟩] BGraph.empty).graph.nodes ∧
    (0, (⟨"a", "T", none⟩ : NodeData)) ∈
      (loadGraphInChunksRun 3
        [⟨"a", "T", none⟩, ⟨"b", "T", none⟩, ⟨"c", "T", none⟩]
        [⟨"a", "b"⟩] BGraph.empty).graph.nodes := by
  constructor
  · exact (c6_prune_exactly_isolated 3
      [⟨"a", "T", none⟩, ⟨"b", "T", none⟩, ⟨"c", "T", none⟩]
      [⟨"a", "b"⟩] BGraph.empty (2, ⟨"c", "T", none⟩) (by decide)).1
      (by decide)
  · exact ((c6_prune_exactly_isolated 3
      [⟨"a", "T", none⟩, ⟨"b", "T", none⟩, ⟨"c", "T", none⟩]
      [⟨"a", "b"⟩] BGraph.empty (0, ⟨"a", "T", none⟩) (by decide)).2).1
      (by decide)

theorem resolveA_isSome (xid : String) (ns : List ANode) :
    (resolveA xid ns).isSome = ns.any (fun an => an.tag.id == xid) := by
  induction ns with
  | nil => rfl
  | cons an t ih =>
    by_cases h : an.tag.id == xid
    · simp [resolveA, h]
    · have h' : (an.tag.id == xid) = false := by simpa using h
      simp only [resolveA, h', Bool.false_eq_true, if_false, List.any_cons]
      cases hr : resolveA xid t with
      | none =>
        rw [hr] at ih
        simp [← ih]
      | some i =>
        rw [hr] at ih
        simp [← ih]

theorem aEdgeStep_none_src (ns : List ANode) (acc : List AEdge) (ce : CEdge)
    (h : resolveA ce.source ns = none) : aEdgeStep ns acc ce = acc := by
  unfold aEdgeStep
  rw [h]

theorem aEdgeStep_none_tgt (ns : List ANode) (acc : List AEdge) (ce : CEdge)
    (si : Nat) (hs : resolveA ce.source ns = some si)
    (h : resolveA ce.target ns = none) : aEdgeStep ns acc ce = acc := by
  unfold aEdgeStep
  rw [hs, h]

theorem aEdgeStep_some (ns : List ANode) (acc : List AEdge) (ce : CEdge)
    (si ti : Nat) (hs : resolveA ce.source ns = some si)
    (ht : resolveA ce.target ns = some ti) :
    aEdgeStep ns acc ce = acc ++ [⟨si, ti, ce⟩] := by
  unfold aEdgeStep
  rw [hs, ht]

theorem buildAEdges_tag_resolves (ns : List ANode) (ces : List CEdge) :
    ∀ (acc : List AEdge) (ae : AEdge),
    ae ∈ ces.foldl (aEdgeStep ns) acc →
    ae ∈ acc ∨ (ae.tag ∈ ces ∧
      (resolveA ae.tag.source ns).isSome = true ∧
      (resolveA ae.tag.target ns).isSome = true) := by
  induction ces with
  | nil =>
    intro acc ae h
    exact Or.inl (by simpa using h)
  | cons ce t ih =>
    intro acc ae h
    rw [List.foldl_cons] at h
    cases hs : resolveA ce.source ns with
    | none =>
      rw [aEdgeStep_none_src ns acc ce hs] at h
      rcases ih acc ae h with h' | ⟨htag, hrs, hrt⟩
      · exact Or.inl h'
      · exact Or.inr ⟨List.mem_cons_of_mem _ htag, hrs, hrt⟩
    | some si =>
      cases ht : resolveA ce.target ns with
      | none =>
        rw [aEdgeStep_none_tgt ns acc ce si hs ht] at h
        rcases ih acc ae h with h' | ⟨htag, hrs, hrt⟩
        · exact Or.inl h'
        · exact Or.inr ⟨List.mem_cons_of_mem _ htag, hrs, hrt⟩
      | some ti =>
        rw [aEdgeStep_some ns acc ce si ti hs ht] at h
        rcases ih _ ae h with h' | ⟨htag, hrs, hrt⟩
        · rcases List.mem_append.mp h' with h'' | h''
          · exact Or.inl h''
          · right
            have hae : ae = ⟨si, ti, ce⟩ := by simpa using h''
            subst hae
            exact ⟨List.mem_cons_self ce t, by rw [hs]; rfl, by rw [ht]; rfl⟩
        · exact Or.inr ⟨List.mem_cons_of_mem _ htag, hrs, hrt⟩

/-- C7: a consolidated edge whose source id or target id matches no node of
the constructed graph is never materialized as a graph edge (and the
materialization loop is a total function — nothing is raised). -/
theorem c7_dangling_edge_never_materialized (prev : AGraph)
    (nodesData : List NodeData) (edgesData : List EdgeRec) (ce : CEdge)
    (hdangling :
      ((updateGraphA prev nodesData edgesData).nodes.all
        (fun an => an.tag.id != ce.source)) = true ∨
      ((updateGraphA prev nodesData edgesData).nodes.all
        (fun an => an.tag.id != ce.target)) = true)
    (ge : AEdge) (hge : ge ∈ (updateGraphA prev nodesData edgesData).edges) :
    ge.tag ≠ ce := by
  intro hcontra
  have hge' : ge ∈ buildAEdges (buildANodes (dedupFW nodesData))
      ((consolidatedEdges edgesData).map (fun kv => kv.2)) := by
    simpa [updateGraphA, AGraph.clear] using hge
  have hns : (updateGraphA prev nodesData edgesData).nodes =
      buildANodes (dedupFW nodesData) := by
    simp [updateGraphA, AGraph.clear]
  rcases buildAEdges_tag_resolves _ _ [] ge hge' with h | ⟨_, hrs, hrt⟩
  · simp at h
  · rw [hcontra] at hrs hrt
    rw [resolveA_isSome] at hrs hrt
    rcases hdangling with hd | hd
    · rw [hns] at hd
      obtain ⟨an, hanmem, hanid⟩ := List.any_eq_true.mp hrs
      have hall := List.all_eq_true.mp hd an hanmem
      have h1 : an.tag.id = ce.source := beq_iff_eq.mp hanid
      simp [h1] at hall
    · rw [hns] at hd
      obtain ⟨an, hanmem, hanid⟩ := List.any_eq_true.mp hrt
      have hall := List.all_eq_true.mp hd an hanmem
      have h1 : an.tag.id = ce.target := beq_iff_eq.mp hanid
      simp [h1] at hall

/-- C7 witness: with nodes a, b and raw edges a→b and a→x (x absent), the
only materialized edge is the a→b one; the theorem applied to the dangling
consolidated edge (a, x) shows the materialized edge cannot carry its tag. -/
theorem c7_dangling_edge_witness :
    ((⟨0, 1, ⟨"a", "b", 1, some "link"⟩⟩ : AEdge).tag ≠
      (⟨"a", "x", 1, none⟩ : CEdge)) ∧
    (updateGraphA AGraph.empty
        [⟨"a", "T", none⟩, ⟨"b", "T", none⟩]
        [⟨"a", "b", some "link"⟩, ⟨"a", "x", none⟩]).edges =
      [⟨0, 1, ⟨"a", "b", 1, some "link"⟩⟩] := by
  constructor
  · exact c7_dangling_edge_never_materialized AGraph.empty
      [⟨"a", "T", none⟩, ⟨"b", "T", none⟩]
      [⟨"a", "b", some "link"⟩, ⟨"a", "x", none⟩]
      ⟨"a", "x", 1, none⟩ (Or.inr (by decide))
      ⟨0, 1, ⟨"a", "b", 1, some "link"⟩⟩ (by decide)
  · decide

/-- C8 amended: only `updateGraph` fully resets per load — it clears the
graph and uses a load-local type→color map, so its result is independent of
any previous graph state.  The GraphBuilder-based loaders do not reset: the
module-global `typeColors` of `loadAndProcessCSVFiles` persists across
loads (a type seen in an earlier load keeps its entry and shifts the next
palette index: after loading type X, a fresh type Y receives palette slot 1
instead of slot 0), and the chunked loader never clears the graph, so a
second load's graph still contains the first load's node entities. -/
theorem c8_reset_only_in_updateGraph :
    (∀ (p1 p2 : AGraph) (nd : List NodeData) (ed : List EdgeRec),
       updateGraphA p1 nd ed = updateGraphA p2 nd ed) ∧
    loadBTypeColors (loadBTypeColors [] [⟨"x1", "X", none⟩])
        [⟨"y1", "Y", none⟩] =
      [("X", "#FF5733"), ("Y", "#33FF57")] ∧
    loadBTypeColors [] [⟨"y1", "Y", none⟩] = [("Y", "#FF5733")] ∧
    (loadGraphInChunksBuild 100 [⟨"b2", "U", none⟩] []
        (loadGraphInChunksBuild 100 [⟨"a1", "T", none⟩] []
          BGraph.empty).2).2.nodes.length = 2 := by
  refine ⟨fun p1 p2 nd ed => rfl, by decide, by decide, by decide⟩

/-- C8 counterexample: the module-global `typeColors` state is NOT cleared
by a new load: after a first load with type X, a second load containing
only type Y yields a color map that still lists X and gives Y a different
color than a fresh load would — the result does not depend only on the
current load's input. -/
theorem c8_color_carry_over_counterexample :
    loadBTypeColors (loadBTypeColors [] [⟨"x1", "X", none⟩])
        [⟨"y1", "Y", none⟩] ≠
      loadBTypeColors [] [⟨"y1", "Y", none⟩] ∧
    lookupTC "Y" (loadBTypeColors (loadBTypeColors [] [⟨"x1", "X", none⟩])
        [⟨"y1", "Y", none⟩]) = some "#33FF57" ∧
    lookupTC "Y" (loadBTypeColors [] [⟨"y1", "Y", none⟩]) =
      some "#FF5733" := by
  refine ⟨by decide, by decide, by decide⟩

/-- C9: both legend derivations are idempotent — applying the legend
builder again on the same unchanged input produces the same rendered DOM,
whose ordered (category, color) entries are exactly the derived map — and
each call fully replaces the previous DOM panel, so no stale entries
survive: rendering after a second load shows only the second load's types
(concrete final conjunct). -/
theorem c9_legend_idempotent_and_replacing
    (d d' : Option (List (String × String))) (nd : List NodeData)
    (g : AGraph) :
    createLegendC d nd = createLegendC d' nd ∧
    createLegendC (createLegendC d nd) nd = createLegendC d nd ∧
    createLegendC d nd = some (getTypeColorMap nd) ∧
    createLegendA d g = createLegendA d' g ∧
    createLegendA (createLegendA d g) g = createLegendA d g ∧
    createLegendA d g = some (legendFromGraph g) ∧
    createLegendA
        (createLegendA none (updateGraphA AGraph.empty [⟨"a1", "X", none⟩] []))
        (updateGraphA AGraph.empty [⟨"b1", "Y", none⟩] []) =
      some [("Y", "#ff6f61")] := by
  exact ⟨rfl, rfl, rfl, rfl, rfl, rfl, by decide⟩
